import Mathlib

/-!
# Verification of the persistent AVL-style tree (`tree.h` rev with balancing, `option.h`)

Shallow embedding of the C++ sources:

* `Tree<T>` (the revision with `balance`, `toList`, iterators) is embedded as
  `PTree`, instantiated at `T = int` (embedded as `Int`, matching `Tree<int>`
  used by the demo program and the unit tests).  A node stores its value, two
  optional children, and the two cached fields `m_size` and `m_height`,
  exactly as the C++ class does.
* `Option<T>` of `option.h` is embedded as `COption`.
* C++ `return`-by-value of a `Tree` invokes the copy constructor
  `Tree(const Tree&)`, which recomputes `m_size`/`m_height` from the free
  functions `tree_size`/`tree_height`; storing a `Tree` into an
  `Option<Tree<T>>` goes through `Option(T value)`, which heap-copies the
  node with the same copy constructor.  We model each such copy explicitly
  with `copyCtor`/`someCopy`.  Note the private constructor
  `Tree(T, Option, Option)` initialises `m_size` to
  `tree_size(left) + tree_size(right)` (without the node itself), while the
  copy constructor recomputes `tree_size(left) + 1 + tree_size(right)`.
-/

namespace PersistentTree

/-- A `Tree<int>` node: contained value, left and right subtrees
(`Option<Tree<int>>`), and the cached fields `m_size` and `m_height`. -/
inductive PTree : Type where
  | node (value : Int) (left : Option PTree) (right : Option PTree)
      (msize : Nat) (mheight : Nat)

namespace PTree

/-- C++ `deref()` / `operator*`: the contained value `m_node`. -/
def value : PTree → Int
  | .node v _ _ _ _ => v

/-- C++ `left()`: the left subtree `m_child_left`. -/
def left : PTree → Option PTree
  | .node _ l _ _ _ => l

/-- C++ `right()`: the right subtree `m_child_right`. -/
def right : PTree → Option PTree
  | .node _ _ r _ _ => r

/-- C++ `size()`: reads the cached field `m_size`. -/
def size : PTree → Nat
  | .node _ _ _ s _ => s

/-- C++ `height()`: reads the cached field `m_height`. -/
def height : PTree → Nat
  | .node _ _ _ _ h => h

end PTree

/-- Node-level core of the free function `tree_size` (split off so that Lean
compiles the recursion structurally; `tree_size` below restores the C++
signature).  `tree_size(tree) = tree_size(tree->left()) + 1 +
tree_size(tree->right())`, ignoring the cached `m_size` fields. -/
def tree_sizeT : PTree → Nat
  | .node _ l r _ _ =>
    (match l with | none => 0 | some lt => tree_sizeT lt) + 1 +
    (match r with | none => 0 | some rt => tree_sizeT rt)

/-- Free function `tree_size` of `tree.h`: 0 for `None`, otherwise the
recursive recomputation. -/
def tree_size : Option PTree → Nat
  | none => 0
  | some t => tree_sizeT t

/-- Node-level core of the free function `tree_height` (same splitting). -/
def tree_heightT : PTree → Nat
  | .node _ l r _ _ =>
    max (match l with | none => 0 | some lt => tree_heightT lt)
      (match r with | none => 0 | some rt => tree_heightT rt) + 1

/-- Free function `tree_height` of `tree.h`: 0 for `None`, otherwise the
recursive recomputation, ignoring the cached `m_height` fields. -/
def tree_height : Option PTree → Nat
  | none => 0
  | some t => tree_heightT t

/-- The single-element constructor `Tree(const T node)`:
`m_size = 1`, `m_height = 1`, both children `None`. -/
def mkTree (v : Int) : PTree := .node v none none 1 1

/-- The private constructor `Tree(const T, const Option, const Option)`.
Source: `m_size(tree_size(left) + tree_size(right))` — note the missing
`+ 1` — and `m_height(std::max(tree_height(left), tree_height(right)) + 1)`. -/
def privCtor (v : Int) (l r : Option PTree) : PTree :=
  .node v l r (tree_size l + tree_size r)
    (max (tree_height l) (tree_height r) + 1)

/-- The copy constructor `Tree(const Tree& head)`: shares the children and
recomputes `m_size = tree_size(left) + 1 + tree_size(right)` and
`m_height = max(tree_height(left), tree_height(right)) + 1`. -/
def copyCtor : PTree → PTree
  | .node v l r _ _ =>
      .node v l r (tree_size l + 1 + tree_size r)
        (max (tree_height l) (tree_height r) + 1)

/-- Storing a bare `Tree` into an `Option<Tree<T>>` (`Some(t)` or the
implicit conversion) goes through `Option(T value)`, which copies the node
with the copy constructor. -/
def someCopy (t : PTree) : Option PTree := some (copyCtor t)

/-- C++ `is_leaf()`: both children are `None`. -/
def is_leaf (t : PTree) : Bool := t.left.isNone && t.right.isNone

/-- C++ `is_balanced()`: recomputes both child heights with `tree_height` and
tests whether either exceeds the other by more than 1. -/
def is_balanced (t : PTree) : Bool :=
  let left_height := tree_height t.left
  let right_height := tree_height t.right
  if left_height > right_height + 1 || right_height > left_height + 1 then
    false
  else
    true

/-- C++ `contains(val)`: equal at this node, else descend left when
`m_node > val`, else right; `false` when the needed child is `None`. -/
def contains : PTree → Int → Bool
  | .node v l r _ _, val =>
    if v == val then true
    else if v > val then
      match l with
      | some lc => contains lc val
      | none => false
    else
      match r with
      | some rc => contains rc val
      | none => false

/-- C++ `toList()`: splices the list of the left child (when `is_some()`),
pushes `m_node`, splices the list of the right child (when `is_some()`). -/
def toList : PTree → List Int
  | .node v l r _ _ =>
    (match l with | none => [] | some lt => toList lt) ++ v ::
    (match r with | none => [] | some rt => toList rt)

/-- The list of a subtree wrapped in an `Option`: empty for `None`. -/
def toListO : Option PTree → List Int
  | none => []
  | some t => toList t

/-- The element-wise comparison loop of `operator==`: walks both lists in
lock-step, `false` on a mismatch or leftover elements. -/
def listEqLoop : List Int → List Int → Bool
  | x :: xs, y :: ys => if x ≠ y then false else listEqLoop xs ys
  | [], [] => true
  | [], _ :: _ => false
  | _ :: _, [] => false

/-- C++ `operator==`: `false` when the cached sizes differ, otherwise compares
the two `toList()` sequences element-wise. -/
def treeEq (t rhs : PTree) : Bool :=
  if rhs.size ≠ t.size then false
  else listEqLoop (toList t) (toList rhs)

/-- C++ `rotLeft()`: the right child becomes the root.  `new_head` is built with
the private constructor and stored into an `Option` (a copy); `new_right` is
returned by value (another copy).  When the right child is `None` the
rotation is skipped and `*this` is returned (a copy). -/
def rotLeft : PTree → PTree
  | t@(.node v l r _ _) =>
    match r with
    | none => copyCtor t
    | some rchld =>
      let rleft := rchld.left
      let new_head := privCtor v l rleft
      let new_right := privCtor rchld.value (someCopy new_head) rchld.right
      copyCtor new_right

/-- C++ `rotRight()`: symmetric to `rotLeft`, pivoting on the left child. -/
def rotRight : PTree → PTree
  | t@(.node v l r _ _) =>
    match l with
    | none => copyCtor t
    | some lchld =>
      let lright := lchld.right
      let new_head := privCtor v lright r
      let new_left := privCtor lchld.value lchld.left (someCopy new_head)
      copyCtor new_left

/-- C++ `balance()`: compares the recomputed child heights; a right rotation
when the left side is too tall, a left rotation when the right side is, and
`*this` (copied on return) otherwise. -/
def balance (t : PTree) : PTree :=
  if tree_height t.left > tree_height t.right + 1 then
    copyCtor (rotRight t)
  else if tree_height t.right > tree_height t.left + 1 then
    copyCtor (rotLeft t)
  else
    copyCtor t

/-- C++ `insert(const T node)`: strictly smaller values go left, equal or
greater go right; a fresh leaf is built at an empty child, otherwise the
insertion recurses; the rebuilt node is passed through `balance()` and
returned by value. -/
def insert : PTree → Int → PTree
  | .node v l r _ _, x =>
    if v > x then
      match l with
      | none => copyCtor (balance (privCtor v (someCopy (mkTree x)) r))
      | some lchld => copyCtor (balance (privCtor v (someCopy (insert lchld x)) r))
    else
      match r with
      | none => copyCtor (balance (privCtor v l (someCopy (mkTree x))))
      | some rchld => copyCtor (balance (privCtor v l (someCopy (insert rchld x))))

/-- C++ `popMin(min_node)`: returns the subtree with its minimum removed, and
(through the C++ out-parameter, which is assigned on every path) the
extracted minimum node.  We return the pair `(remainder, min_node)`. -/
def popMin : PTree → Option PTree × PTree
  | t@(.node v l r _ _) =>
    match l with
    | some lchld =>
      let rest := popMin lchld
      (someCopy (privCtor v rest.1 r), rest.2)
    | none => (r, copyCtor t)

/-- C++ `popMax(max_node)`: symmetric to `popMin`. -/
def popMax : PTree → Option PTree × PTree
  | t@(.node v l r _ _) =>
    match r with
    | some rchld =>
      let rest := popMax rchld
      (someCopy (privCtor v l rest.1), rest.2)
    | none => (l, copyCtor t)

/-- C++ `removeThisNode()`: a leaf vanishes; with a left child the maximum of
the left subtree is promoted (`popMax`), otherwise the minimum of the right
subtree (`popMin`).  The rebuilt node is wrapped in `Some` (a copy).  No
rebalancing happens here.  The final `none` arm is unreachable: a non-leaf
with no left child has a right child. -/
def removeThisNode : PTree → Option PTree
  | t@(.node _ l r _ _) =>
    if is_leaf t then none
    else
      match l with
      | some lchld =>
        let popped := popMax lchld
        someCopy (privCtor popped.2.value popped.1 r)
      | none =>
        match r with
        | some rchld =>
          let popped := popMin rchld
          someCopy (privCtor popped.2.value l popped.1)
        | none => none

/-- C++ `remove(const T& node)`: at the target value, `removeThisNode`; absent
values are a no-op returning `Some(*this)` (a copy); otherwise the node is
rebuilt around the recursive removal and passed through `balance()`. -/
def remove : PTree → Int → Option PTree
  | t@(.node v l r _ _), x =>
    if v == x then removeThisNode t
    else if v > x then
      match l with
      | none => someCopy t
      | some lchld => someCopy (balance (privCtor v (remove lchld x) r))
    else
      match r with
      | none => someCopy t
      | some rchld => someCopy (balance (privCtor v l (remove rchld x)))

/-- Failure kinds of the embedded core.  `DereferenceOfEmpty` is the
`std::logic_error("dereference of NoneType")` raised by the accessors of an
empty `Option`.  `NullPointerUB` marks the undefined behaviour of
dereferencing a null `shared_ptr` (reachable in C++ only through the
bare-pointer constructor called with a null pointer); it is not an exception
the code raises. -/
inductive CoreErr : Type where
  | DereferenceOfEmpty
  | NullPointerUB
deriving Repr, DecidableEq

/-- Node-level core of `TreeIter::deref(tree, place)`: index-addressed
descent.  An index at or past `place + tree->size()` (the cached `m_size`)
yields the value `0`; otherwise the recomputed left-subtree size routes the
index left, to this node, or right with a rebased origin.  A recursive call
on an empty child throws from `operator->` when it reads `tree->size()`; we
raise the error at the call site, which is equivalent. -/
def derefIterT (m_index : Nat) : PTree → Nat → Except CoreErr Int
  | .node v l r ms _, place =>
    if m_index ≥ place + ms then .ok 0
    else
      let left_size := tree_size l
      if m_index == place + left_size then .ok v
      else if m_index < place + left_size then
        match l with
        | none => .error .DereferenceOfEmpty
        | some lt => derefIterT m_index lt place
      else
        match r with
        | none => .error .DereferenceOfEmpty
        | some rt => derefIterT m_index rt (place + left_size + 1)

/-- Unfolding equation of `derefIterT` at a node. -/
theorem derefIterT_node (m : Nat) (v : Int) (l r : Option PTree)
    (ms mh place : Nat) :
    derefIterT m (.node v l r ms mh) place =
      (if m ≥ place + ms then .ok 0
       else if m == place + tree_size l then .ok v
       else if m < place + tree_size l then
         (match l with
          | none => .error .DereferenceOfEmpty
          | some lt => derefIterT m lt place)
       else
         (match r with
          | none => .error .DereferenceOfEmpty
          | some rt => derefIterT m rt (place + tree_size l + 1))) := by
  cases l <;> cases r <;> rfl

/-- C++ `TreeIter::deref` on the `Option` argument: dereferencing an empty
`Option` throws. -/
def derefIter (m_index : Nat) : Option PTree → Nat → Except CoreErr Int
  | none, _ => .error .DereferenceOfEmpty
  | some t, place => derefIterT m_index t place

/-- C++ `TreeIter::operator*`: calls `deref(m_tree, 0)`; the reference `m_tree`
is converted to an `Option<Tree<T>>`, copying the root node. -/
def topDeref (t : PTree) (m_index : Nat) : Except CoreErr Int :=
  derefIter m_index (someCopy t) 0

/-- The `begin()`/`end()` loop: `begin` starts at index 0, `operator++`
increments the index, and the loop stops when the index reaches
the index `tree.size()` of `end()` (iterator equality holds then because both
iterators reference the same tree).  Each step collects `operator*`. -/
def iterCollect (t : PTree) : List (Except CoreErr Int) :=
  (List.range t.size).map (topDeref t)

/-- Trees obtainable from a single-element tree by `insert` and `remove`
(the public mutating surface). -/
inductive Reachable : PTree → Prop where
  | base (v : Int) : Reachable (mkTree v)
  | ins {t : PTree} (v : Int) : Reachable t → Reachable (insert t v)
  | rem {t t' : PTree} (v : Int) : Reachable t → remove t v = some t' → Reachable t'

/-! ## Basic lemmas about the embedding -/

@[simp] theorem value_node (v : Int) (l r : Option PTree) (ms mh : Nat) :
    (PTree.node v l r ms mh).value = v := rfl

@[simp] theorem left_node (v : Int) (l r : Option PTree) (ms mh : Nat) :
    (PTree.node v l r ms mh).left = l := rfl

@[simp] theorem right_node (v : Int) (l r : Option PTree) (ms mh : Nat) :
    (PTree.node v l r ms mh).right = r := rfl

@[simp] theorem size_node (v : Int) (l r : Option PTree) (ms mh : Nat) :
    (PTree.node v l r ms mh).size = ms := rfl

@[simp] theorem height_node (v : Int) (l r : Option PTree) (ms mh : Nat) :
    (PTree.node v l r ms mh).height = mh := rfl

@[simp] theorem tree_size_none : tree_size none = 0 := rfl

@[simp] theorem tree_size_some_node (v : Int) (l r : Option PTree) (ms mh : Nat) :
    tree_size (some (.node v l r ms mh)) = tree_size l + 1 + tree_size r := by
  cases l <;> cases r <;> rfl

@[simp] theorem tree_height_none : tree_height none = 0 := rfl

@[simp] theorem tree_height_some_node (v : Int) (l r : Option PTree) (ms mh : Nat) :
    tree_height (some (.node v l r ms mh)) =
      max (tree_height l) (tree_height r) + 1 := by
  cases l <;> cases r <;> rfl

@[simp] theorem toListO_none : toListO none = [] := rfl

@[simp] theorem toList_node (v : Int) (l r : Option PTree) (ms mh : Nat) :
    toList (.node v l r ms mh) = toListO l ++ v :: toListO r := by
  cases l <;> cases r <;> rfl

@[simp] theorem toListO_some_node (v : Int) (l r : Option PTree) (ms mh : Nat) :
    toListO (some (.node v l r ms mh)) = toListO l ++ v :: toListO r :=
  toList_node v l r ms mh

@[simp] theorem copyCtor_node (v : Int) (l r : Option PTree) (ms mh : Nat) :
    copyCtor (.node v l r ms mh) =
      .node v l r (tree_size l + 1 + tree_size r)
        (max (tree_height l) (tree_height r) + 1) := rfl

@[simp] theorem toListO_some (t : PTree) : toListO (some t) = toList t := rfl

@[simp] theorem toList_copyCtor (t : PTree) : toList (copyCtor t) = toList t := by
  cases t with
  | node v l r ms mh => rw [copyCtor_node, toList_node, toList_node]

@[simp] theorem toListO_someCopy (t : PTree) : toListO (someCopy t) = toList t := by
  rw [someCopy, toListO_some, toList_copyCtor]

@[simp] theorem tree_size_someCopy (t : PTree) :
    tree_size (someCopy t) = tree_size (some t) := by
  cases t with
  | node v l r ms mh =>
    rw [someCopy, copyCtor_node, tree_size_some_node, tree_size_some_node]

@[simp] theorem tree_height_someCopy (t : PTree) :
    tree_height (someCopy t) = tree_height (some t) := by
  cases t with
  | node v l r ms mh =>
    rw [someCopy, copyCtor_node, tree_height_some_node, tree_height_some_node]

@[simp] theorem toList_privCtor (v : Int) (l r : Option PTree) :
    toList (privCtor v l r) = toListO l ++ v :: toListO r := by
  rw [privCtor, toList_node]

theorem tree_size_toListO : ∀ o : Option PTree, tree_size o = (toListO o).length
  | none => by simp
  | some (.node v l r ms mh) => by
    simp [tree_size_toListO l, tree_size_toListO r]
    omega

theorem toList_length (t : PTree) : (toList t).length = tree_size (some t) :=
  (tree_size_toListO (some t)).symm

theorem toList_ne_nil (t : PTree) : toList t ≠ [] := by
  cases t with
  | node v l r ms mh => simp [toList_node]

@[simp] theorem toList_mkTree (v : Int) : toList (mkTree v) = [v] := by
  rw [mkTree, toList_node]
  simp

/-! ## `toList` is preserved by rotation and rebalancing -/

theorem toList_rotLeft (t : PTree) : toList (rotLeft t) = toList t := by
  cases t with
  | node v l r ms mh =>
    cases r with
    | none => simp [rotLeft, toList_node]
    | some rc =>
      cases rc with
      | node rv rl rr rms rmh =>
        simp [rotLeft, PTree.value, PTree.left, PTree.right, toList_node]

theorem toList_rotRight (t : PTree) : toList (rotRight t) = toList t := by
  cases t with
  | node v l r ms mh =>
    cases l with
    | none => simp [rotRight, toList_node]
    | some lc =>
      cases lc with
      | node lv ll lr lms lmh =>
        simp [rotRight, PTree.value, PTree.left, PTree.right, toList_node]

theorem toList_balance (t : PTree) : toList (balance t) = toList t := by
  rw [balance]
  split
  · rw [toList_copyCtor, toList_rotRight]
  · split
    · rw [toList_copyCtor, toList_rotLeft]
    · rw [toList_copyCtor]

/-! ## Branch equations for `insert` -/

theorem insert_lt_left_none (v x : Int) (r : Option PTree) (ms mh : Nat)
    (h : v > x) :
    insert (.node v none r ms mh) x =
      copyCtor (balance (privCtor v (someCopy (mkTree x)) r)) := by
  cases r <;> simp [insert, h]

theorem insert_lt_left_some (v x : Int) (lc : PTree) (r : Option PTree)
    (ms mh : Nat) (h : v > x) :
    insert (.node v (some lc) r ms mh) x =
      copyCtor (balance (privCtor v (someCopy (insert lc x)) r)) := by
  cases r <;> simp [insert, h]

theorem insert_ge_right_none (v x : Int) (l : Option PTree) (ms mh : Nat)
    (h : ¬v > x) :
    insert (.node v l none ms mh) x =
      copyCtor (balance (privCtor v l (someCopy (mkTree x)))) := by
  cases l <;> simp [insert, h]

theorem insert_ge_right_some (v x : Int) (l : Option PTree) (rc : PTree)
    (ms mh : Nat) (h : ¬v > x) :
    insert (.node v l (some rc) ms mh) x =
      copyCtor (balance (privCtor v l (someCopy (insert rc x)))) := by
  cases l <;> simp [insert, h]

/-! ## `insert` adds exactly the inserted value -/

theorem toList_insert_perm : ∀ (t : PTree) (x : Int),
    (toList (insert t x)).Perm (x :: toList t)
  | .node v l r ms mh, x => by
    by_cases hvx : v > x
    · cases l with
      | none =>
        rw [insert_lt_left_none v x r ms mh hvx, toList_copyCtor, toList_balance]
        simp [mkTree, toList_node]
      | some lc =>
        rw [insert_lt_left_some v x lc r ms mh hvx, toList_copyCtor, toList_balance]
        simp only [toList_privCtor, toListO_someCopy, toList_node, toListO_some_node]
        have h := (toList_insert_perm lc x).append_right (v :: toListO r)
        simpa [toList] using h
    · cases r with
      | none =>
        rw [insert_ge_right_none v x l ms mh hvx, toList_copyCtor, toList_balance]
        simp only [toList_privCtor, toListO_someCopy, toList_mkTree, toList_node,
          toListO_none]
        simpa using (@List.perm_middle Int x (toListO l ++ [v]) [])
      | some rc =>
        rw [insert_ge_right_some v x l rc ms mh hvx, toList_copyCtor, toList_balance]
        simp only [toList_privCtor, toListO_someCopy, toList_node, toListO_some_node]
        have h := ((toList_insert_perm rc x).cons v).append_left (toListO l)
        refine (h.trans ?_)
        have h2 := @List.perm_middle Int x (toListO l ++ [v]) (toListO rc)
        simpa [toList] using h2

theorem tree_size_insert (t : PTree) (x : Int) :
    tree_size (some (insert t x)) = tree_size (some t) + 1 := by
  have h := (toList_insert_perm t x).length_eq
  simp only [List.length_cons] at h
  rw [← toList_length, ← toList_length]
  exact h

/-! ## Branch equations for the removal path -/

theorem popMax_right_none (v : Int) (l : Option PTree) (ms mh : Nat) :
    popMax (.node v l none ms mh) = (l, copyCtor (.node v l none ms mh)) := by
  cases l <;> simp [popMax]

theorem popMax_right_some (v : Int) (l : Option PTree) (rc : PTree)
    (ms mh : Nat) :
    popMax (.node v l (some rc) ms mh) =
      (someCopy (privCtor v l (popMax rc).1), (popMax rc).2) := by
  cases l <;> simp [popMax]

theorem popMin_left_none (v : Int) (r : Option PTree) (ms mh : Nat) :
    popMin (.node v none r ms mh) = (r, copyCtor (.node v none r ms mh)) := by
  cases r <;> simp [popMin]

theorem popMin_left_some (v : Int) (lc : PTree) (r : Option PTree)
    (ms mh : Nat) :
    popMin (.node v (some lc) r ms mh) =
      (someCopy (privCtor v (popMin lc).1 r), (popMin lc).2) := by
  cases r <;> simp [popMin]

theorem removeThisNode_leaf (v : Int) (ms mh : Nat) :
    removeThisNode (.node v none none ms mh) = none := by
  simp [removeThisNode, is_leaf]

theorem removeThisNode_left_some (v : Int) (lc : PTree) (r : Option PTree)
    (ms mh : Nat) :
    removeThisNode (.node v (some lc) r ms mh) =
      someCopy (privCtor (popMax lc).2.value (popMax lc).1 r) := by
  cases r <;> simp [removeThisNode, is_leaf]

theorem removeThisNode_right_some (v : Int) (rc : PTree) (ms mh : Nat) :
    removeThisNode (.node v none (some rc) ms mh) =
      someCopy (privCtor (popMin rc).2.value none (popMin rc).1) := by
  simp [removeThisNode, is_leaf]

theorem remove_found (v x : Int) (l r : Option PTree) (ms mh : Nat)
    (h : v = x) :
    remove (.node v l r ms mh) x = removeThisNode (.node v l r ms mh) := by
  cases l <;> cases r <;> simp [remove, removeThisNode, h, is_leaf]

theorem remove_lt_left_none (v x : Int) (r : Option PTree) (ms mh : Nat)
    (hne : ¬v = x) (hgt : v > x) :
    remove (.node v none r ms mh) x = someCopy (.node v none r ms mh) := by
  cases r <;> simp [remove, hne, hgt]

theorem remove_lt_left_some (v x : Int) (lc : PTree) (r : Option PTree)
    (ms mh : Nat) (hne : ¬v = x) (hgt : v > x) :
    remove (.node v (some lc) r ms mh) x =
      someCopy (balance (privCtor v (remove lc x) r)) := by
  cases r <;> simp [remove, hne, hgt]

theorem remove_ge_right_none (v x : Int) (l : Option PTree) (ms mh : Nat)
    (hne : ¬v = x) (hle : ¬v > x) :
    remove (.node v l none ms mh) x = someCopy (.node v l none ms mh) := by
  cases l <;> simp [remove, hne, hle]

theorem remove_ge_right_some (v x : Int) (l : Option PTree) (rc : PTree)
    (ms mh : Nat) (hne : ¬v = x) (hle : ¬v > x) :
    remove (.node v l (some rc) ms mh) x =
      someCopy (balance (privCtor v l (remove rc x))) := by
  cases l <;> simp [remove, hne, hle]

theorem contains_found (v x : Int) (l r : Option PTree) (ms mh : Nat)
    (h : v = x) : contains (.node v l r ms mh) x = true := by
  cases l <;> cases r <;> simp [contains, h]

theorem contains_lt (v x : Int) (l r : Option PTree) (ms mh : Nat)
    (hne : ¬v = x) (hgt : v > x) :
    contains (.node v l r ms mh) x =
      (match l with | some lc => contains lc x | none => false) := by
  cases l <;> cases r <;> simp [contains, hne, hgt]

theorem contains_ge (v x : Int) (l r : Option PTree) (ms mh : Nat)
    (hne : ¬v = x) (hle : ¬v > x) :
    contains (.node v l r ms mh) x =
      (match r with | some rc => contains rc x | none => false) := by
  cases l <;> cases r <;> simp [contains, hne, hle]

/-! ## Lists under `popMin`/`popMax` and removal -/

theorem popMax_toList : ∀ t : PTree,
    toListO (popMax t).1 ++ [(popMax t).2.value] = toList t
  | .node v l r ms mh => by
    cases r with
    | none =>
      rw [popMax_right_none]
      simp [toList_node]
    | some rc =>
      rw [popMax_right_some]
      simp only [toListO_someCopy, toList_privCtor, toList_node, toListO_some]
      rw [List.append_assoc, List.cons_append, popMax_toList rc]

theorem popMin_toList : ∀ t : PTree,
    (popMin t).2.value :: toListO (popMin t).1 = toList t
  | .node v l r ms mh => by
    cases l with
    | none =>
      rw [popMin_left_none]
      simp [toList_node]
    | some lc =>
      rw [popMin_left_some]
      simp only [toListO_someCopy, toList_privCtor, toList_node, toListO_some]
      rw [← List.cons_append, popMin_toList lc]

theorem removeThisNode_toList (v : Int) (l r : Option PTree) (ms mh : Nat) :
    toListO (removeThisNode (.node v l r ms mh)) = toListO l ++ toListO r := by
  cases l with
  | some lc =>
    rw [removeThisNode_left_some]
    simp only [toListO_someCopy, toList_privCtor, toListO_some]
    rw [show toListO (popMax lc).1 ++ (popMax lc).2.value :: toListO r =
      (toListO (popMax lc).1 ++ [(popMax lc).2.value]) ++ toListO r by simp]
    rw [popMax_toList lc]
  | none =>
    cases r with
    | none => rw [removeThisNode_leaf]; simp
    | some rc =>
      rw [removeThisNode_right_some]
      simp only [toListO_someCopy, toList_privCtor, toListO_some, toListO_none,
        List.nil_append]
      rw [popMin_toList rc]

theorem remove_toList_sublist : ∀ (t : PTree) (x : Int),
    (toListO (remove t x)).Sublist (toList t)
  | .node v l r ms mh, x => by
    by_cases hvx : v = x
    · rw [remove_found v x l r ms mh hvx, removeThisNode_toList, toList_node]
      exact (List.Sublist.refl (toListO l)).append (List.sublist_cons_self v (toListO r))
    · by_cases hgt : v > x
      · cases l with
        | none =>
          rw [remove_lt_left_none v x r ms mh hvx hgt]
          simp
        | some lc =>
          rw [remove_lt_left_some v x lc r ms mh hvx hgt]
          simp only [toListO_someCopy, toList_balance, toList_privCtor, toList_node,
            toListO_some]
          exact (remove_toList_sublist lc x).append (List.Sublist.refl _)
      · cases r with
        | none =>
          rw [remove_ge_right_none v x l ms mh hvx hgt]
          simp
        | some rc =>
          rw [remove_ge_right_some v x l rc ms mh hvx hgt]
          simp only [toListO_someCopy, toList_balance, toList_privCtor, toList_node,
            toListO_some]
          exact (List.Sublist.refl _).append ((remove_toList_sublist rc x).cons_cons v)

theorem remove_toList_of_not_contains : ∀ (t : PTree) (x : Int),
    contains t x = false → toListO (remove t x) = toList t
  | .node v l r ms mh, x => by
    intro hc
    have hvx : ¬v = x := by
      intro h
      rw [contains_found v x l r ms mh h] at hc
      exact Bool.noConfusion hc
    by_cases hgt : v > x
    · rw [contains_lt v x l r ms mh hvx hgt] at hc
      cases l with
      | none =>
        rw [remove_lt_left_none v x r ms mh hvx hgt]
        simp
      | some lc =>
        rw [remove_lt_left_some v x lc r ms mh hvx hgt]
        simp only [toListO_someCopy, toList_balance, toList_privCtor, toList_node,
          toListO_some]
        rw [remove_toList_of_not_contains lc x hc]
    · rw [contains_ge v x l r ms mh hvx hgt] at hc
      cases r with
      | none =>
        rw [remove_ge_right_none v x l ms mh hvx hgt]
        simp
      | some rc =>
        rw [remove_ge_right_some v x l rc ms mh hvx hgt]
        simp only [toListO_someCopy, toList_balance, toList_privCtor, toList_node,
          toListO_some]
        rw [remove_toList_of_not_contains rc x hc]

/-! ## Sortedness of in-order lists -/

theorem mem_toList_insert {a : Int} (t : PTree) (x : Int)
    (h : a ∈ toList (insert t x)) : a ∈ x :: toList t :=
  (toList_insert_perm t x).mem_iff.mp h

theorem sorted_insert : ∀ (t : PTree) (x : Int),
    (toList t).Sorted (· ≤ ·) → (toList (insert t x)).Sorted (· ≤ ·)
  | .node v l r ms mh, x => by
    intro hs
    rw [toList_node, List.Sorted, List.pairwise_append] at hs
    obtain ⟨hsl, hsvr, hcross⟩ := hs
    have hvr : ∀ b ∈ toListO r, v ≤ b := (List.pairwise_cons.mp hsvr).1
    by_cases hvx : v > x
    · cases l with
      | none =>
        rw [insert_lt_left_none v x r ms mh hvx, toList_copyCtor, toList_balance,
          toList_privCtor]
        simp only [toListO_someCopy, toList_mkTree]
        rw [List.Sorted, List.pairwise_append]
        refine ⟨by simp, hsvr, ?_⟩
        intro a ha b hb
        rw [List.mem_singleton] at ha
        subst ha
        rcases List.mem_cons.mp hb with hb | hb
        · subst hb; exact le_of_lt hvx
        · exact le_trans (le_of_lt hvx) (hvr b hb)
      | some lc =>
        rw [insert_lt_left_some v x lc r ms mh hvx, toList_copyCtor, toList_balance,
          toList_privCtor]
        simp only [toListO_someCopy, toListO_some] at hsl hcross ⊢
        rw [List.Sorted, List.pairwise_append]
        refine ⟨sorted_insert lc x hsl, hsvr, ?_⟩
        intro a ha b hb
        rcases List.mem_cons.mp (mem_toList_insert lc x ha) with ha2 | ha2
        · subst ha2
          rcases List.mem_cons.mp hb with hb | hb
          · subst hb; exact le_of_lt hvx
          · exact le_trans (le_of_lt hvx) (hvr b hb)
        · exact hcross a ha2 b hb
    · have hvlex : v ≤ x := not_lt.mp hvx
      cases r with
      | none =>
        rw [insert_ge_right_none v x l ms mh hvx, toList_copyCtor, toList_balance,
          toList_privCtor]
        simp only [toListO_someCopy, toList_mkTree]
        rw [List.Sorted, List.pairwise_append]
        refine ⟨hsl, ?_, ?_⟩
        · simp [hvlex]
        · intro a ha b hb
          have hav : a ≤ v := hcross a ha v (List.mem_cons_self v _)
          rcases List.mem_cons.mp hb with hb | hb
          · subst hb; exact hav
          · rw [List.mem_singleton] at hb
            subst hb; exact le_trans hav hvlex
      | some rc =>
        rw [insert_ge_right_some v x l rc ms mh hvx, toList_copyCtor, toList_balance,
          toList_privCtor]
        simp only [toListO_someCopy, toListO_some] at hsvr hvr hcross ⊢
        have hsr : (toList rc).Sorted (· ≤ ·) := (List.pairwise_cons.mp hsvr).2
        rw [List.Sorted, List.pairwise_append]
        refine ⟨hsl, ?_, ?_⟩
        · rw [List.pairwise_cons]
          refine ⟨?_, sorted_insert rc x hsr⟩
          intro b hb
          rcases List.mem_cons.mp (mem_toList_insert rc x hb) with hb2 | hb2
          · subst hb2; exact hvlex
          · exact hvr b hb2
        · intro a ha b hb
          have hav : a ≤ v := hcross a ha v (List.mem_cons_self v _)
          rcases List.mem_cons.mp hb with hb | hb
          · subst hb; exact hav
          · rcases List.mem_cons.mp (mem_toList_insert rc x hb) with hb2 | hb2
            · subst hb2; exact le_trans hav hvlex
            · exact hcross a ha b (List.mem_cons_of_mem v hb2)

theorem sorted_remove (t : PTree) (x : Int)
    (hs : (toList t).Sorted (· ≤ ·)) :
    (toListO (remove t x)).Sorted (· ≤ ·) :=
  List.Pairwise.sublist (remove_toList_sublist t x) hs

theorem reachable_sorted {t : PTree} (h : Reachable t) :
    (toList t).Sorted (· ≤ ·) := by
  induction h with
  | base v => simp [List.Sorted]
  | ins v ht ih => exact sorted_insert _ _ ih
  | rem v ht heq ih =>
    have hsub := sorted_remove _ v ih
    rw [heq, toListO_some] at hsub
    exact hsub

/-! ## The cached `m_size` field

The private constructor omits the `+ 1`, but every node that is stored into
an `Option` or returned by value goes through the copy constructor, which
recomputes the field from `tree_size`.  `sizeOKo` states that every node of
a (sub)tree carries the correct cached size. -/

def sizeOKo : Option PTree → Prop
  | none => True
  | some (.node _ l r ms _) =>
      ms = tree_size l + 1 + tree_size r ∧ sizeOKo l ∧ sizeOKo r

@[simp] theorem sizeOKo_none : sizeOKo none := by
  rw [sizeOKo]; trivial

theorem sizeOKo_node (v : Int) (l r : Option PTree) (ms mh : Nat) :
    sizeOKo (some (.node v l r ms mh)) ↔
      ms = tree_size l + 1 + tree_size r ∧ sizeOKo l ∧ sizeOKo r := by
  rw [sizeOKo]

theorem sizeOKo_copyCtor (v : Int) (l r : Option PTree) (ms mh : Nat)
    (hl : sizeOKo l) (hr : sizeOKo r) :
    sizeOKo (some (copyCtor (.node v l r ms mh))) := by
  rw [copyCtor, sizeOKo_node]
  exact ⟨rfl, hl, hr⟩

theorem sizeOKo_copyCtor_of_some (t : PTree) (h : sizeOKo (some t)) :
    sizeOKo (some (copyCtor t)) := by
  cases t with
  | node v l r ms mh =>
    rw [sizeOKo_node] at h
    exact sizeOKo_copyCtor v l r ms mh h.2.1 h.2.2

theorem sizeOKo_someCopy_of_some (t : PTree) (h : sizeOKo (some t)) :
    sizeOKo (someCopy t) :=
  sizeOKo_copyCtor_of_some t h

theorem sizeOKo_copyCtor_privCtor (v : Int) (l r : Option PTree)
    (hl : sizeOKo l) (hr : sizeOKo r) :
    sizeOKo (some (copyCtor (privCtor v l r))) := by
  rw [privCtor]
  exact sizeOKo_copyCtor v l r _ _ hl hr

theorem sizeOKo_someCopy_privCtor (v : Int) (l r : Option PTree)
    (hl : sizeOKo l) (hr : sizeOKo r) :
    sizeOKo (someCopy (privCtor v l r)) :=
  sizeOKo_copyCtor_privCtor v l r hl hr

theorem sizeOKo_children (t : PTree) (h : sizeOKo (some t)) :
    sizeOKo t.left ∧ sizeOKo t.right := by
  cases t with
  | node v l r ms mh =>
    rw [sizeOKo_node] at h
    exact ⟨h.2.1, h.2.2⟩

theorem sizeOK_rotLeft (t : PTree) (hl : sizeOKo t.left)
    (hr : sizeOKo t.right) : sizeOKo (some (rotLeft t)) := by
  cases t with
  | node v l r ms mh =>
    simp only [left_node, right_node] at hl hr
    cases r with
    | none =>
      rw [rotLeft]
      exact sizeOKo_copyCtor v l none ms mh hl hr
    | some rc =>
      cases rc with
      | node rv rl rr rms rmh =>
        rw [sizeOKo_node] at hr
        rw [rotLeft]
        simp only [PTree.value, PTree.left, PTree.right]
        exact sizeOKo_copyCtor_privCtor _ _ _
          (sizeOKo_someCopy_privCtor _ _ _ hl hr.2.1) hr.2.2

theorem sizeOK_rotRight (t : PTree) (hl : sizeOKo t.left)
    (hr : sizeOKo t.right) : sizeOKo (some (rotRight t)) := by
  cases t with
  | node v l r ms mh =>
    simp only [left_node, right_node] at hl hr
    cases l with
    | none =>
      rw [rotRight]
      exact sizeOKo_copyCtor v none r ms mh hl hr
    | some lc =>
      cases lc with
      | node lv ll lr lms lmh =>
        rw [sizeOKo_node] at hl
        rw [rotRight]
        simp only [PTree.value, PTree.left, PTree.right]
        exact sizeOKo_copyCtor_privCtor _ _ _ hl.2.1
          (sizeOKo_someCopy_privCtor _ _ _ hl.2.2 hr)

theorem sizeOK_balance (t : PTree) (hl : sizeOKo t.left)
    (hr : sizeOKo t.right) : sizeOKo (some (balance t)) := by
  rw [balance]
  split
  · exact sizeOKo_copyCtor_of_some _ (sizeOK_rotRight t hl hr)
  · split
    · exact sizeOKo_copyCtor_of_some _ (sizeOK_rotLeft t hl hr)
    · cases t with
      | node v l r ms mh =>
        exact sizeOKo_copyCtor v l r ms mh hl hr

theorem sizeOKo_mkTree (v : Int) : sizeOKo (some (mkTree v)) := by
  rw [mkTree, sizeOKo_node]
  simp

theorem sizeOK_insert : ∀ (t : PTree) (x : Int),
    sizeOKo (some t) → sizeOKo (some (insert t x))
  | .node v l r ms mh, x => by
    intro h
    rw [sizeOKo_node] at h
    obtain ⟨-, hl, hr⟩ := h
    by_cases hvx : v > x
    · cases l with
      | none =>
        rw [insert_lt_left_none v x r ms mh hvx]
        refine sizeOKo_copyCtor_of_some _ (sizeOK_balance _ ?_ ?_)
        · exact sizeOKo_someCopy_of_some _ (sizeOKo_mkTree x)
        · exact hr
      | some lc =>
        rw [insert_lt_left_some v x lc r ms mh hvx]
        refine sizeOKo_copyCtor_of_some _ (sizeOK_balance _ ?_ ?_)
        · exact sizeOKo_someCopy_of_some _ (sizeOK_insert lc x hl)
        · exact hr
    · cases r with
      | none =>
        rw [insert_ge_right_none v x l ms mh hvx]
        refine sizeOKo_copyCtor_of_some _ (sizeOK_balance _ ?_ ?_)
        · exact hl
        · exact sizeOKo_someCopy_of_some _ (sizeOKo_mkTree x)
      | some rc =>
        rw [insert_ge_right_some v x l rc ms mh hvx]
        refine sizeOKo_copyCtor_of_some _ (sizeOK_balance _ ?_ ?_)
        · exact hl
        · exact sizeOKo_someCopy_of_some _ (sizeOK_insert rc x hr)

theorem sizeOK_popMax : ∀ t : PTree, sizeOKo (some t) → sizeOKo (popMax t).1
  | .node v l r ms mh => by
    intro h
    rw [sizeOKo_node] at h
    obtain ⟨-, hl, hr⟩ := h
    cases r with
    | none =>
      rw [popMax_right_none]
      exact hl
    | some rc =>
      rw [popMax_right_some]
      exact sizeOKo_someCopy_privCtor _ _ _ hl (sizeOK_popMax rc hr)

theorem sizeOK_popMin : ∀ t : PTree, sizeOKo (some t) → sizeOKo (popMin t).1
  | .node v l r ms mh => by
    intro h
    rw [sizeOKo_node] at h
    obtain ⟨-, hl, hr⟩ := h
    cases l with
    | none =>
      rw [popMin_left_none]
      exact hr
    | some lc =>
      rw [popMin_left_some]
      exact sizeOKo_someCopy_privCtor _ _ _ (sizeOK_popMin lc hl) hr

theorem sizeOK_removeThisNode (t : PTree) (h : sizeOKo (some t)) :
    sizeOKo (removeThisNode t) := by
  cases t with
  | node v l r ms mh =>
    rw [sizeOKo_node] at h
    obtain ⟨-, hl, hr⟩ := h
    cases l with
    | some lc =>
      rw [removeThisNode_left_some]
      exact sizeOKo_someCopy_privCtor _ _ _ (sizeOK_popMax lc hl) hr
    | none =>
      cases r with
      | none => rw [removeThisNode_leaf]; exact sizeOKo_none
      | some rc =>
        rw [removeThisNode_right_some]
        exact sizeOKo_someCopy_privCtor _ _ _ sizeOKo_none (sizeOK_popMin rc hr)

theorem sizeOK_remove : ∀ (t : PTree) (x : Int),
    sizeOKo (some t) → sizeOKo (remove t x)
  | .node v l r ms mh, x => by
    intro h
    have hc := sizeOKo_children _ h
    simp only [left_node, right_node] at hc
    by_cases hvx : v = x
    · rw [remove_found v x l r ms mh hvx]
      exact sizeOK_removeThisNode _ h
    · by_cases hgt : v > x
      · cases l with
        | none =>
          rw [remove_lt_left_none v x r ms mh hvx hgt]
          exact sizeOKo_someCopy_of_some _ h
        | some lc =>
          rw [remove_lt_left_some v x lc r ms mh hvx hgt]
          refine sizeOKo_someCopy_of_some _ (sizeOK_balance _ ?_ ?_)
          · exact sizeOK_remove lc x hc.1
          · exact hc.2
      · cases r with
        | none =>
          rw [remove_ge_right_none v x l ms mh hvx hgt]
          exact sizeOKo_someCopy_of_some _ h
        | some rc =>
          rw [remove_ge_right_some v x l rc ms mh hvx hgt]
          refine sizeOKo_someCopy_of_some _ (sizeOK_balance _ ?_ ?_)
          · exact hc.1
          · exact sizeOK_remove rc x hc.2

theorem reachable_sizeOK {t : PTree} (h : Reachable t) : sizeOKo (some t) := by
  induction h with
  | base v => exact sizeOKo_mkTree v
  | ins v ht ih => exact sizeOK_insert _ v ih
  | rem v ht heq ih =>
    have hrem := sizeOK_remove _ v ih
    rw [heq] at hrem
    exact hrem

theorem size_eq_tree_size (t : PTree) (h : sizeOKo (some t)) :
    t.size = tree_size (some t) := by
  cases t with
  | node v l r ms mh =>
    rw [sizeOKo_node] at h
    rw [size_node, tree_size_some_node]
    exact h.1

/-! ## Correctness of the iterator dereference -/

theorem derefIterT_ok : ∀ (t : PTree) (place i : Nat),
    sizeOKo (some t) → i < tree_size (some t) →
    derefIterT (place + i) t place = .ok ((toList t).getD i 0)
  | .node v l r ms mh, place, i => by
    intro hok hi
    rw [sizeOKo_node] at hok
    obtain ⟨hms, hl, hr⟩ := hok
    rw [tree_size_some_node] at hi
    have hlen_l : (toListO l).length = tree_size l := (tree_size_toListO l).symm
    rw [derefIterT_node]
    rw [if_neg (by omega)]
    by_cases heq : i = tree_size l
    · rw [if_pos (by simp [heq])]
      rw [toList_node, heq]
      rw [List.getD_append_right _ _ _ _ (le_of_eq hlen_l)]
      rw [hlen_l, Nat.sub_self, List.getD_cons_zero]
    · rw [if_neg (by simp; omega)]
      by_cases hlt : i < tree_size l
      · rw [if_pos (by omega)]
        cases l with
        | none => simp at hlt
        | some lc =>
          simp only []
          rw [derefIterT_ok lc place i hl hlt]
          rw [toList_node,
            List.getD_append _ _ _ _ (lt_of_lt_of_eq hlt hlen_l.symm)]
          rw [toListO_some]
      · rw [if_neg (by omega)]
        cases r with
        | none =>
          exfalso
          rw [tree_size_none] at hi
          omega
        | some rc =>
          simp only []
          have hj : i - tree_size l - 1 < tree_size (some rc) := by omega
          have harg : place + i =
              (place + tree_size l + 1) + (i - tree_size l - 1) := by omega
          rw [harg, derefIterT_ok rc (place + tree_size l + 1) _ hr hj]
          rw [toList_node, List.getD_append_right _ _ _ _ (by omega)]
          have hsub : i - (toListO l).length = (i - tree_size l - 1) + 1 := by
            omega
          rw [hsub, List.getD_cons_succ, toListO_some]

theorem topDeref_ok (t : PTree) (i : Nat) (hok : sizeOKo (some t))
    (hi : i < tree_size (some t)) :
    topDeref t i = .ok ((toList t).getD i 0) := by
  have hsz : tree_size (someCopy t) = tree_size (some t) := tree_size_someCopy t
  have hd := derefIterT_ok (copyCtor t) 0 i (sizeOKo_copyCtor_of_some t hok)
    (by rw [← someCopy] at *; omega)
  rw [Nat.zero_add] at hd
  rw [topDeref, someCopy, derefIter, hd, toList_copyCtor]

/-! ## The comparison loop of `operator==` -/

theorem listEqLoop_iff : ∀ xs ys : List Int, listEqLoop xs ys = true ↔ xs = ys
  | [], [] => by rw [listEqLoop]; simp
  | _ :: _, [] => by rw [listEqLoop]; simp
  | [], _ :: _ => by rw [listEqLoop]; simp
  | x :: xs, y :: ys => by
    rw [listEqLoop]
    by_cases h : x = y
    · simp [h, listEqLoop_iff xs ys]
    · simp [h]

/-! ## When does `remove` return the empty container? -/

theorem tree_size_some_pos (u : PTree) : 1 ≤ tree_size (some u) := by
  cases u with
  | node v l r ms mh => rw [tree_size_some_node]; omega

theorem tree_size_eq_zero_iff (o : Option PTree) : tree_size o = 0 ↔ o = none := by
  cases o with
  | none => simp
  | some u =>
    constructor
    · intro h
      have := tree_size_some_pos u
      omega
    · intro h
      exact Option.noConfusion h

theorem someCopy_ne_none (u : PTree) : someCopy u ≠ none := by
  rw [someCopy]
  exact fun h => Option.noConfusion h

theorem remove_eq_none_iff (t : PTree) (x : Int) :
    remove t x = none ↔ t.left = none ∧ t.right = none ∧ t.value = x := by
  cases t with
  | node v l r ms mh =>
    simp only [left_node, right_node, value_node]
    by_cases hv : v = x
    · rw [remove_found v x l r ms mh hv]
      cases l with
      | some lc =>
        rw [removeThisNode_left_some]
        simp [someCopy_ne_none]
      | none =>
        cases r with
        | some rc =>
          rw [removeThisNode_right_some]
          simp [someCopy_ne_none]
        | none =>
          rw [removeThisNode_leaf]
          simp [hv]
    · constructor
      · intro h
        exfalso
        by_cases hgt : v > x
        · cases l with
          | none => rw [remove_lt_left_none v x r ms mh hv hgt] at h
                    exact someCopy_ne_none _ h
          | some lc => rw [remove_lt_left_some v x lc r ms mh hv hgt] at h
                       exact someCopy_ne_none _ h
        · cases r with
          | none => rw [remove_ge_right_none v x l ms mh hv hgt] at h
                    exact someCopy_ne_none _ h
          | some rc => rw [remove_ge_right_some v x l rc ms mh hv hgt] at h
                       exact someCopy_ne_none _ h
      · intro h
        exact absurd h.2.2 hv

/-! ## Trees built by folding `insert` over a list of values -/

def buildT (v0 : Int) (xs : List Int) : PTree := xs.foldl insert (mkTree v0)

theorem reachable_foldl : ∀ (xs : List Int) (t : PTree), Reachable t →
    Reachable (xs.foldl insert t)
  | [], _, h => h
  | x :: xs, t, h => reachable_foldl xs (insert t x) (Reachable.ins x h)

theorem reachable_buildT (v0 : Int) (xs : List Int) : Reachable (buildT v0 xs) :=
  reachable_foldl xs (mkTree v0) (Reachable.base v0)

theorem toList_foldl_perm : ∀ (xs : List Int) (t : PTree),
    (toList (xs.foldl insert t)).Perm (xs ++ toList t)
  | [], t => by simp
  | x :: xs, t => by
    rw [List.foldl_cons]
    refine (toList_foldl_perm xs (insert t x)).trans ?_
    have h1 := (toList_insert_perm t x).append_left xs
    refine h1.trans ?_
    simpa using (@List.perm_middle Int x xs (toList t))

theorem toList_buildT_perm (v0 : Int) (xs : List Int) :
    (toList (buildT v0 xs)).Perm (v0 :: xs) := by
  rw [buildT]
  refine (toList_foldl_perm xs (mkTree v0)).trans ?_
  rw [toList_mkTree]
  simpa using (@List.perm_middle Int v0 xs [])

theorem toList_buildT_eq_of_perm (v0 : Int) (xs ys : List Int)
    (h : xs.Perm ys) : toList (buildT v0 xs) = toList (buildT v0 ys) := by
  refine List.eq_of_perm_of_sorted ?_ (reachable_sorted (reachable_buildT v0 xs))
    (reachable_sorted (reachable_buildT v0 ys))
  exact (toList_buildT_perm v0 xs).trans ((h.cons v0).trans
    (toList_buildT_perm v0 ys).symm)

theorem size_buildT (v0 : Int) (xs : List Int) :
    (buildT v0 xs).size = xs.length + 1 := by
  rw [size_eq_tree_size _ (reachable_sizeOK (reachable_buildT v0 xs))]
  rw [← toList_length]
  rw [(toList_buildT_perm v0 xs).length_eq]
  simp

/-! ## The nullable container `Option<T>` of `option.h`

A C++ `Option<T>` holds a `shared_ptr<T> m_value` (null or pointing to a
value, modelled as a Lean `Option α`) and the flag `m_is_some`. -/

structure COption (α : Type) : Type where
  m_value : Option α
  m_is_some : Bool

namespace COption

variable {α : Type}

/-- C++ `is_some()`. -/
def is_some (o : COption α) : Bool := o.m_is_some

/-- C++ `is_none()`. -/
def is_none (o : COption α) : Bool := !o.m_is_some

/-- The `Option(std::shared_ptr<T> value)` constructor:
`m_is_some(value != NULL)`. -/
def fromShared (p : Option α) : COption α := ⟨p, p.isSome⟩

/-- The bare-pointer constructor `Option(T *value, ...)`: sets
`m_is_some(true)` unconditionally, even for a null argument. -/
def fromBare (p : Option α) : COption α := ⟨p, true⟩

/-- The `Option(T value)` constructor: heap-copies the value (`Some`). -/
def fromValue (v : α) : COption α := ⟨some v, true⟩

/-- The no-argument constructor (`None`): null pointer, `m_is_some(false)`. -/
def noneCtor : COption α := ⟨none, false⟩

/-- C++ `get_ref()`: returns the shared pointer itself when `is_some()`, throws
`DereferenceOfEmpty` otherwise.  It does not dereference the pointer. -/
def get_ref (o : COption α) : Except CoreErr (Option α) :=
  if o.m_is_some then .ok o.m_value else .error .DereferenceOfEmpty

/-- C++ `get_bare()`: returns `*m_value` when `is_some()` (undefined behaviour on
a null pointer), throws `DereferenceOfEmpty` otherwise. -/
def get_bare (o : COption α) : Except CoreErr α :=
  if o.m_is_some then
    match o.m_value with
    | some v => .ok v
    | none => .error .NullPointerUB
  else .error .DereferenceOfEmpty

/-- C++ `operator->`: returns `m_value.get()` when `is_some()` — reading through
it is undefined behaviour on a null pointer — and throws
`DereferenceOfEmpty` otherwise.  We model the read through the returned
pointer. -/
def arrowGet (o : COption α) : Except CoreErr α :=
  if o.m_is_some then
    match o.m_value with
    | some v => .ok v
    | none => .error .NullPointerUB
  else .error .DereferenceOfEmpty

/-- A container is well formed when the flag agrees with the pointer; every
container the tree code constructs (`Some` of a value, `Some` of a non-null
shared pointer, `None`) is well formed.  Only the bare-pointer constructor
applied to a null pointer can break this. -/
def WFopt (o : COption α) : Prop := o.m_is_some = o.m_value.isSome

end COption

/-! ## Heap-explicit model of `insert` (persistence)

In the C++ source every node lives behind reference-counted pointers and
all members of `Tree` are `const`: `insert` only constructs new nodes, it
never writes through an existing pointer.  To state persistence we make the
heap explicit: a `Store` is the list of allocated nodes in allocation
order, a child reference is an index into the store, and every constructor
call of `insert`/`balance`/`rotLeft`/`rotRight` becomes an allocation that
appends one node.  A well-formed store has children allocated before their
parent (smaller indices), so a node at index `i` denotes a tree using at
most `i + 1` lookups of strictly decreasing indices. -/

structure SNode : Type where
  value : Int
  left : Option Nat
  right : Option Nat
  msize : Nat
  mheight : Nat
deriving Repr, DecidableEq

abbrev Store := List SNode

/-- Fuel-indexed denotation of a store reference as a `PTree`.  For a
well-formed store, fuel `i + 1` fully unfolds the node at index `i`. -/
def denoteF : Store → Nat → Option Nat → Option PTree
  | _, 0, _ => none
  | _, _ + 1, none => none
  | st, fuel + 1, some ref =>
    match st[ref]? with
    | none => none
    | some nd =>
      some (.node nd.value (denoteF st fuel nd.left) (denoteF st fuel nd.right)
        nd.msize nd.mheight)

/-- Denotation of an optional reference with adequate fuel. -/
def denoteOS (st : Store) : Option Nat → Option PTree
  | none => none
  | some i => denoteF st (i + 1) (some i)

/-- C++ `tree_size` computed in the store (recursive recomputation, as the C++
free function does). -/
def sizeS (st : Store) (r : Option Nat) : Nat := tree_size (denoteOS st r)

/-- C++ `tree_height` computed in the store. -/
def heightS (st : Store) (r : Option Nat) : Nat := tree_height (denoteOS st r)

/-- C++ `T.contains(x)` observed at a root reference. -/
def storeContains (st : Store) (root : Nat) (x : Int) : Bool :=
  match denoteOS st (some root) with
  | some t => contains t x
  | none => false

/-- C++ `T.size()` observed at a root reference: reads the cached `m_size`. -/
def storeSize (st : Store) (root : Nat) : Nat :=
  match st[root]? with
  | some nd => nd.msize
  | none => 0

/-- Allocation: append a node, return its index. -/
def allocS (st : Store) (nd : SNode) : Store × Nat := (st ++ [nd], st.length)

/-- Allocate a one-element leaf: the `Tree(const T)` constructor. -/
def allocLeaf (st : Store) (v : Int) : Store × Nat :=
  allocS st ⟨v, none, none, 1, 1⟩

/-- Allocate via the private constructor (`m_size` without the `+ 1`). -/
def allocPriv (st : Store) (v : Int) (l r : Option Nat) : Store × Nat :=
  allocS st ⟨v, l, r, sizeS st l + sizeS st r,
    max (heightS st l) (heightS st r) + 1⟩

/-- Allocate a copy of the node at `i`: the copy constructor (recomputed
`m_size` with the `+ 1`); children are shared, not copied. -/
def allocCopy (st : Store) (i : Nat) : Store × Nat :=
  match st[i]? with
  | some nd =>
    allocS st ⟨nd.value, nd.left, nd.right,
      sizeS st nd.left + 1 + sizeS st nd.right,
      max (heightS st nd.left) (heightS st nd.right) + 1⟩
  | none => (st, i)

/-- C++ `rotLeft` in the store: allocates `new_head`, its copy stored into the
`Option`, `new_right`, and the returned copy. -/
def storeRotLeft (st : Store) (i : Nat) : Store × Nat :=
  match st[i]? with
  | none => (st, i)
  | some nd =>
    match nd.right with
    | none => allocCopy st i
    | some rch =>
      match st[rch]? with
      | none => (st, i)
      | some rnd =>
        let p1 := allocPriv st nd.value nd.left rnd.left
        let p2 := allocCopy p1.1 p1.2
        let p3 := allocPriv p2.1 rnd.value (some p2.2) rnd.right
        allocCopy p3.1 p3.2

/-- C++ `rotRight` in the store. -/
def storeRotRight (st : Store) (i : Nat) : Store × Nat :=
  match st[i]? with
  | none => (st, i)
  | some nd =>
    match nd.left with
    | none => allocCopy st i
    | some lch =>
      match st[lch]? with
      | none => (st, i)
      | some lnd =>
        let p1 := allocPriv st nd.value lnd.right nd.right
        let p2 := allocCopy p1.1 p1.2
        let p3 := allocPriv p2.1 lnd.value lnd.left (some p2.2)
        allocCopy p3.1 p3.2

/-- C++ `balance` in the store. -/
def storeBalance (st : Store) (i : Nat) : Store × Nat :=
  match st[i]? with
  | none => (st, i)
  | some nd =>
    if heightS st nd.left > heightS st nd.right + 1 then
      let p := storeRotRight st i
      allocCopy p.1 p.2
    else if heightS st nd.right > heightS st nd.left + 1 then
      let p := storeRotLeft st i
      allocCopy p.1 p.2
    else allocCopy st i

/-- C++ `insert` in the store, fuel-indexed (the recursion descends through
store indices; any fuel at least the height of the tree at `i` suffices,
and the persistence theorem below holds for every fuel). -/
def storeInsertF : Nat → Store → Nat → Int → Store × Nat
  | 0, st, i, _ => (st, i)
  | fuel + 1, st, i, x =>
    match st[i]? with
    | none => (st, i)
    | some nd =>
      if nd.value > x then
        match nd.left with
        | none =>
          let leaf := allocLeaf st x
          let leafc := allocCopy leaf.1 leaf.2
          let h := allocPriv leafc.1 nd.value (some leafc.2) nd.right
          let b := storeBalance h.1 h.2
          allocCopy b.1 b.2
        | some lc =>
          let rec1 := storeInsertF fuel st lc x
          let recc := allocCopy rec1.1 rec1.2
          let h := allocPriv recc.1 nd.value (some recc.2) nd.right
          let b := storeBalance h.1 h.2
          allocCopy b.1 b.2
      else
        match nd.right with
        | none =>
          let leaf := allocLeaf st x
          let leafc := allocCopy leaf.1 leaf.2
          let h := allocPriv leafc.1 nd.value nd.left (some leafc.2)
          let b := storeBalance h.1 h.2
          allocCopy b.1 b.2
        | some rc =>
          let rec1 := storeInsertF fuel st rc x
          let recc := allocCopy rec1.1 rec1.2
          let h := allocPriv recc.1 nd.value nd.left (some recc.2)
          let b := storeBalance h.1 h.2
          allocCopy b.1 b.2

/-- Child references allocated strictly before their parent. -/
def childLT : Option Nat → Nat → Bool
  | none, _ => true
  | some j, i => j < i

/-- Well-formedness of a store: the children of every node point strictly below
it. -/
def WFStore (st : Store) : Bool :=
  (List.range st.length).all fun i =>
    match st[i]? with
    | some nd => childLT nd.left i && childLT nd.right i
    | none => true

/-- The new store is the old one with nodes appended. -/
def StoreExt (st st' : Store) : Prop := ∃ d, st' = st ++ d

theorem StoreExt.rfl (st : Store) : StoreExt st st := ⟨[], by simp⟩

theorem StoreExt.trans {s1 s2 s3 : Store} (h1 : StoreExt s1 s2)
    (h2 : StoreExt s2 s3) : StoreExt s1 s3 := by
  obtain ⟨d1, h1⟩ := h1
  obtain ⟨d2, h2⟩ := h2
  exact ⟨d1 ++ d2, by rw [h2, h1, List.append_assoc]⟩

theorem allocS_ext (st : Store) (nd : SNode) : StoreExt st (allocS st nd).1 :=
  ⟨[nd], rfl⟩

theorem allocLeaf_ext (st : Store) (v : Int) : StoreExt st (allocLeaf st v).1 :=
  allocS_ext _ _

theorem allocPriv_ext (st : Store) (v : Int) (l r : Option Nat) :
    StoreExt st (allocPriv st v l r).1 :=
  allocS_ext _ _

theorem allocCopy_ext (st : Store) (i : Nat) : StoreExt st (allocCopy st i).1 := by
  rw [allocCopy]
  cases st[i]? with
  | some nd => exact allocS_ext _ _
  | none => exact StoreExt.rfl st

theorem storeRotLeft_ext (st : Store) (i : Nat) :
    StoreExt st (storeRotLeft st i).1 := by
  rw [storeRotLeft]
  split
  · exact StoreExt.rfl st
  · split
    · exact allocCopy_ext st i
    · split
      · exact StoreExt.rfl st
      · exact ((allocPriv_ext st _ _ _).trans (allocCopy_ext _ _)).trans
          ((allocPriv_ext _ _ _ _).trans (allocCopy_ext _ _))

theorem storeRotRight_ext (st : Store) (i : Nat) :
    StoreExt st (storeRotRight st i).1 := by
  rw [storeRotRight]
  split
  · exact StoreExt.rfl st
  · split
    · exact allocCopy_ext st i
    · split
      · exact StoreExt.rfl st
      · exact ((allocPriv_ext st _ _ _).trans (allocCopy_ext _ _)).trans
          ((allocPriv_ext _ _ _ _).trans (allocCopy_ext _ _))

theorem storeBalance_ext (st : Store) (i : Nat) :
    StoreExt st (storeBalance st i).1 := by
  rw [storeBalance]
  split
  · exact StoreExt.rfl st
  · split
    · exact (storeRotRight_ext st i).trans (allocCopy_ext _ _)
    · split
      · exact (storeRotLeft_ext st i).trans (allocCopy_ext _ _)
      · exact allocCopy_ext st i

theorem storeInsertF_ext : ∀ (fuel : Nat) (st : Store) (i : Nat) (x : Int),
    StoreExt st (storeInsertF fuel st i x).1
  | 0, st, i, x => StoreExt.rfl st
  | fuel + 1, st, i, x => by
    rw [storeInsertF]
    split
    · exact StoreExt.rfl st
    · split
      · split
        · exact (((allocLeaf_ext st x).trans (allocCopy_ext _ _)).trans
            (allocPriv_ext _ _ _ _)).trans
            ((storeBalance_ext _ _).trans (allocCopy_ext _ _))
        · exact (((storeInsertF_ext fuel st _ x).trans
            (allocCopy_ext _ _)).trans (allocPriv_ext _ _ _ _)).trans
            ((storeBalance_ext _ _).trans (allocCopy_ext _ _))
      · split
        · exact (((allocLeaf_ext st x).trans (allocCopy_ext _ _)).trans
            (allocPriv_ext _ _ _ _)).trans
            ((storeBalance_ext _ _).trans (allocCopy_ext _ _))
        · exact (((storeInsertF_ext fuel st _ x).trans
            (allocCopy_ext _ _)).trans (allocPriv_ext _ _ _ _)).trans
            ((storeBalance_ext _ _).trans (allocCopy_ext _ _))

theorem StoreExt.lookup_eq {st st' : Store} (h : StoreExt st st') {i : Nat}
    (hi : i < st.length) : st'[i]? = st[i]? := by
  obtain ⟨d, hd⟩ := h
  rw [hd]
  exact List.getElem?_append_left hi

theorem WFStore_bounds {st : Store} (hwf : WFStore st = true) {i : Nat}
    {nd : SNode} (h : st[i]? = some nd) :
    (∀ j, nd.left = some j → j < i) ∧ (∀ j, nd.right = some j → j < i) := by
  have hi : i < st.length := by
    by_contra hge
    rw [List.getElem?_eq_none (by omega)] at h
    exact Option.noConfusion h
  rw [WFStore, List.all_eq_true] at hwf
  have := hwf i (List.mem_range.mpr hi)
  rw [h] at this
  simp only [Bool.and_eq_true] at this
  constructor
  · intro j hj
    have h1 := this.1
    rw [hj, childLT] at h1
    exact of_decide_eq_true h1
  · intro j hj
    have h2 := this.2
    rw [hj, childLT] at h2
    exact of_decide_eq_true h2

theorem denoteF_none_ref (st : Store) (fuel : Nat) :
    denoteF st fuel none = none := by
  cases fuel with
  | zero => rw [denoteF]
  | succ n => rw [denoteF]

theorem denoteF_ext {st st' : Store} (hext : StoreExt st st')
    (hwf : WFStore st = true) :
    ∀ (fuel : Nat) (ref : Nat), ref < st.length →
      denoteF st' fuel (some ref) = denoteF st fuel (some ref) := by
  intro fuel
  induction fuel with
  | zero => intro ref _; rw [denoteF, denoteF]
  | succ n ih =>
    intro ref href
    rw [denoteF, denoteF, hext.lookup_eq href]
    cases hx : st[ref]? with
    | none => rfl
    | some nd =>
      have hb := WFStore_bounds hwf hx
      have hleft : denoteF st' n nd.left = denoteF st n nd.left := by
        cases hl : nd.left with
        | none => rw [denoteF_none_ref, denoteF_none_ref]
        | some j => exact ih j (lt_trans (hb.1 j hl) href)
      have hright : denoteF st' n nd.right = denoteF st n nd.right := by
        cases hr : nd.right with
        | none => rw [denoteF_none_ref, denoteF_none_ref]
        | some j => exact ih j (lt_trans (hb.2 j hr) href)
      simp only []
      rw [hleft, hright]

/-! # Claim theorems -/

/-- C1: for every tree `T` reachable from a single-element tree by the
public operations and every value `v` (a value already present included,
since `v` is arbitrary), `T.insert(v).size() = T.size() + 1`; moreover every
node of the resulting tree carries a cached `m_size` field equal to 1 plus
the size of its left subtree plus the size of its right subtree (the copy
performed whenever a node is stored into an `Option` or returned by value
recomputes the field that the private constructor under-initialises). -/
theorem C1_insert_size_law (t : PTree) (v : Int) (h : Reachable t) :
    (insert t v).size = t.size + 1 ∧ sizeOKo (some (insert t v)) := by
  have hok := reachable_sizeOK h
  have hins := sizeOK_insert t v hok
  refine ⟨?_, hins⟩
  rw [size_eq_tree_size _ hins, size_eq_tree_size t hok, tree_size_insert]

theorem C1_witness :
    (insert (insert (mkTree 5) 5) 5).size = (insert (mkTree 5) 5).size + 1 ∧
      sizeOKo (some (insert (insert (mkTree 5) 5) 5)) :=
  C1_insert_size_law (insert (mkTree 5) 5) 5 (Reachable.ins 5 (Reachable.base 5))

/-- C2 (code bug): the balance invariant `|height(left) - height(right)| ≤ 1`
fails on the code.  Inserting 1 and then 2 into the single-element tree 3 is
a zig-zag case, which the single rotation of `balance` cannot repair: the
resulting reachable tree has an empty left subtree and a right subtree of
height 2 at the root, and `is_balanced()` reports `false`. -/
theorem C2_balance_violation :
    is_balanced (insert (insert (mkTree 3) 1) 2) = false ∧
    tree_height (insert (insert (mkTree 3) 1) 2).left = 0 ∧
    tree_height (insert (insert (mkTree 3) 1) 2).right = 2 :=
  ⟨rfl, rfl, rfl⟩

/-- The running example for claim C3: the balanced reachable tree with
in-order list `[1, 2, 3, 4, 5]`, root value 2. -/
def T3ex : PTree := insert (insert (insert (insert (mkTree 3) 2) 1) 4) 5

/-- C3 (counterexample): removing the root value 2 of `T3ex` returns the
node rebuilt from the promoted predecessor WITHOUT the rebalancing step: the
returned tree is unbalanced, even though applying `balance` to it would
rotate and produce a balanced tree — so the rebuilt node cannot have been
passed through `balance` before being returned. -/
theorem C3_counterexample :
    (remove T3ex 2).map is_balanced = some false ∧
    (remove T3ex 2).map (fun u => is_balanced (balance u)) = some true :=
  ⟨rfl, rfl⟩

/-- C3 (amended): when `remove` finds the target value at a node with at
least one child, the node rebuilt from the promoted predecessor (`popMax` of
the left child) or successor (`popMin` of the right child) is returned
directly, wrapped in `Some` (a copy); no rebalancing step is applied to it,
and the reconstructions inside `popMin`/`popMax` are not rebalanced either —
only the ancestors along the search path of `remove` pass through `balance`. -/
theorem C3_amended (v x : Int) (l r : Option PTree) (ms mh : Nat)
    (hfound : v = x) :
    (∀ lc, l = some lc →
      remove (.node v l r ms mh) x =
        someCopy (privCtor (popMax lc).2.value (popMax lc).1 r)) ∧
    (l = none → ∀ rc, r = some rc →
      remove (.node v l r ms mh) x =
        someCopy (privCtor (popMin rc).2.value none (popMin rc).1)) := by
  constructor
  · intro lc hl
    subst hl
    rw [remove_found v x _ r ms mh hfound, removeThisNode_left_some]
  · intro hl rc hr
    subst hl
    subst hr
    rw [remove_found v x none _ ms mh hfound, removeThisNode_right_some]

theorem C3_amended_witness :
    remove (.node 2 (some (mkTree 1)) (some (mkTree 3)) 3 3) 2 =
      someCopy (privCtor (popMax (mkTree 1)).2.value (popMax (mkTree 1)).1
        (some (mkTree 3))) :=
  (C3_amended 2 2 (some (mkTree 1)) (some (mkTree 3)) 3 3 rfl).1 (mkTree 1) rfl

/-- C4: iterating from `begin()` to `end()` (indices 0 to `size() - 1`, each
step dereferencing with the index-addressed descent) collects exactly the
sequence `toList()`, which contains every value of the tree once, in
ascending order. -/
theorem C4_iteration_is_toList (t : PTree) (h : Reachable t) :
    iterCollect t = (toList t).map Except.ok ∧
    (toList t).Sorted (· ≤ ·) := by
  refine ⟨?_, reachable_sorted h⟩
  have hok := reachable_sizeOK h
  have hsz : t.size = tree_size (some t) := size_eq_tree_size t hok
  rw [iterCollect]
  apply List.ext_getElem
  · rw [List.length_map, List.length_range, List.length_map, toList_length, hsz]
  · intro i h1 h2
    simp only [List.getElem_map, List.getElem_range]
    have hi : i < tree_size (some t) := by
      rw [List.length_map, List.length_range] at h1
      omega
    rw [topDeref_ok t i hok hi]
    rw [List.getD_eq_getElem?_getD, List.getElem?_eq_getElem (by
      rw [toList_length]; exact hi)]
    rfl

theorem C4_witness :
    iterCollect (insert (mkTree 3) 1) =
        (toList (insert (mkTree 3) 1)).map Except.ok ∧
      (toList (insert (mkTree 3) 1)).Sorted (· ≤ ·) :=
  C4_iteration_is_toList (insert (mkTree 3) 1)
    (Reachable.ins 1 (Reachable.base 3))

/-- C5: persistence of `insert`.  In the heap-explicit model, inserting `v`
into the tree rooted at `root` of a well-formed store only appends new
nodes, so for the original root every observation is unchanged: for every
`x`, `T.contains(x)` is the same before and after, and `T.size()` is the
same before and after. -/
theorem C5_persistence (st : Store) (root : Nat) (v x : Int) (fuel : Nat)
    (hwf : WFStore st = true) (hroot : root < st.length) :
    storeContains (storeInsertF fuel st root v).1 root x =
      storeContains st root x ∧
    storeSize (storeInsertF fuel st root v).1 root = storeSize st root := by
  have hext := storeInsertF_ext fuel st root v
  constructor
  · simp only [storeContains, denoteOS]
    rw [denoteF_ext hext hwf (root + 1) root hroot]
  · rw [storeSize, storeSize, hext.lookup_eq hroot]

theorem C5_witness :
    storeContains (storeInsertF 1 [⟨5, none, none, 1, 1⟩] 0 4).1 0 4 =
      storeContains [⟨5, none, none, 1, 1⟩] 0 4 ∧
    storeSize (storeInsertF 1 [⟨5, none, none, 1, 1⟩] 0 4).1 0 =
      storeSize [⟨5, none, none, 1, 1⟩] 0 :=
  C5_persistence [⟨5, none, none, 1, 1⟩] 0 4 4 1 (by decide) (by decide)

/-- C6: `remove` returns the empty container exactly when the tree is a
single node holding the removed value; and removing an absent value returns
a non-empty container holding a tree with the same in-order contents. -/
theorem C6_remove_result (t : PTree) (v : Int) :
    (remove t v = none ↔ tree_size (some t) = 1 ∧ t.value = v) ∧
    (contains t v = false →
      ∃ u, remove t v = some u ∧ toList u = toList t) := by
  constructor
  · rw [remove_eq_none_iff]
    cases t with
    | node w l r ms mh =>
      simp only [left_node, right_node, value_node, tree_size_some_node]
      constructor
      · intro h
        rw [h.1, h.2.1]
        simp [h.2.2]
      · intro h
        have h1 : tree_size l = 0 := by
          have := tree_size_some_pos
          cases hl : l with
          | none => simp
          | some u => rw [hl] at h; have := tree_size_some_pos u; omega
        have h2 : tree_size r = 0 := by omega
        rw [tree_size_eq_zero_iff] at h1 h2
        exact ⟨h1, h2, h.2⟩
  · intro hc
    have hl := remove_toList_of_not_contains t v hc
    cases hrem : remove t v with
    | none =>
      exfalso
      rw [hrem, toListO_none] at hl
      exact toList_ne_nil t hl.symm
    | some u =>
      rw [hrem, toListO_some] at hl
      exact ⟨u, rfl, hl⟩

theorem C6_witness :
    (remove (mkTree 5) 5 = none ↔
      tree_size (some (mkTree 5)) = 1 ∧ (mkTree 5).value = 5) ∧
    contains (insert (mkTree 5) 4) 3 = false ∧
    (∃ u, remove (insert (mkTree 5) 4) 3 = some u ∧
      toList u = toList (insert (mkTree 5) 4)) :=
  ⟨(C6_remove_result (mkTree 5) 5).1, by decide,
    (C6_remove_result (insert (mkTree 5) 4) 3).2 (by decide)⟩

/-- C7: for every tree obtained from a single-element tree by any sequence
of `insert` and `remove` operations, `toList()` is non-decreasing. -/
theorem C7_order_invariant (t : PTree) (h : Reachable t) :
    (toList t).Sorted (· ≤ ·) :=
  reachable_sorted h

theorem C7_witness :
    (toList (insert (insert (mkTree 5) 9) 7)).Sorted (· ≤ ·) :=
  C7_order_invariant (insert (insert (mkTree 5) 9) 7)
    (Reachable.ins 7 (Reachable.ins 9 (Reachable.base 5)))

/-- C8: two trees built by inserting the same multiset of values (any two
insertion orders) starting from the same initial element compare equal under
`operator==`; a tree built with one extra inserted value compares unequal to
the tree without it. -/
theorem C8_equality_law (v0 : Int) (xs ys : List Int) (hperm : xs.Perm ys) :
    treeEq (buildT v0 xs) (buildT v0 ys) = true ∧
    ∀ x, treeEq (buildT v0 (xs ++ [x])) (buildT v0 xs) = false := by
  constructor
  · rw [treeEq]
    rw [if_neg (by
      rw [size_buildT, size_buildT, hperm.length_eq]
      simp)]
    rw [listEqLoop_iff]
    exact toList_buildT_eq_of_perm v0 xs ys hperm
  · intro x
    rw [treeEq]
    rw [if_pos (by
      rw [size_buildT, size_buildT, List.length_append]
      simp)]

theorem C8_witness :
    treeEq (buildT 5 [1, 2]) (buildT 5 [2, 1]) = true ∧
    treeEq (buildT 5 [1, 2, 7]) (buildT 5 [1, 2]) = false :=
  ⟨(C8_equality_law 5 [1, 2] [2, 1] (by decide)).1,
    (C8_equality_law 5 [1, 2] [2, 1] (by decide)).2 7⟩

/-- C9: for every well-formed `Option` (every one the core constructs),
reading its content succeeds and returns the held value exactly when the
option is non-empty, fails with `DereferenceOfEmpty` exactly when it is
empty, and `DereferenceOfEmpty` is the only failure kind any accessor
raises. -/
theorem C9_option_accessors (α : Type) (o : COption α) (hwf : o.WFopt) :
    (o.is_some = true ↔ ∃ v, o.m_value = some v) ∧
    (∀ v, o.m_value = some v →
      o.get_ref = .ok (some v) ∧ o.get_bare = .ok v ∧ o.arrowGet = .ok v) ∧
    (o.m_value = none →
      o.get_ref = .error .DereferenceOfEmpty ∧
      o.get_bare = .error .DereferenceOfEmpty ∧
      o.arrowGet = .error .DereferenceOfEmpty) ∧
    (∀ e, o.get_ref = .error e → e = .DereferenceOfEmpty) ∧
    (∀ e, o.get_bare = .error e → e = .DereferenceOfEmpty) ∧
    (∀ e, o.arrowGet = .error e → e = .DereferenceOfEmpty) := by
  obtain ⟨mval, mis⟩ := o
  have hmis : mis = mval.isSome := hwf
  subst hmis
  cases mval with
  | some v =>
    refine ⟨⟨fun _ => ⟨v, rfl⟩, fun _ => rfl⟩, ?_, ?_, ?_, ?_, ?_⟩
    · intro w hw
      cases hw
      exact ⟨rfl, rfl, rfl⟩
    · intro h
      exact Option.noConfusion h
    · intro e he
      exact Except.noConfusion he
    · intro e he
      exact Except.noConfusion he
    · intro e he
      exact Except.noConfusion he
  | none =>
    refine ⟨?_, ?_, ?_, ?_, ?_, ?_⟩
    · constructor
      · intro h
        exact Bool.noConfusion h
      · rintro ⟨v, hv⟩
        exact Option.noConfusion hv
    · intro w hw
      exact Option.noConfusion hw
    · intro _
      exact ⟨rfl, rfl, rfl⟩
    · intro e he
      exact (Except.error.inj he).symm
    · intro e he
      exact (Except.error.inj he).symm
    · intro e he
      exact (Except.error.inj he).symm

theorem C9_witness :
    (COption.fromValue (5 : Int)).get_ref = .ok (some 5) ∧
    (COption.fromValue (5 : Int)).get_bare = .ok 5 ∧
    (COption.fromValue (5 : Int)).arrowGet = .ok 5 ∧
    (@COption.noneCtor Int).get_bare = .error .DereferenceOfEmpty := by
  have h1 := C9_option_accessors Int (COption.fromValue 5) rfl
  have h2 := C9_option_accessors Int COption.noneCtor rfl
  exact ⟨(h1.2.1 5 rfl).1, (h1.2.1 5 rfl).2.1, (h1.2.1 5 rfl).2.2,
    (h2.2.2.1 rfl).2.1⟩

/-- C10: dereferencing an iterator whose logical index is at or past the
number of elements of the tree — in particular the `end()` iterator, whose
index is `tree.size()` — returns the value 0 and raises no error. -/
theorem C10_past_end_deref (t : PTree) (i : Nat) (hr : Reachable t)
    (h : t.size ≤ i) : topDeref t i = .ok 0 := by
  have hsz := size_eq_tree_size t (reachable_sizeOK hr)
  rw [topDeref, someCopy, derefIter]
  cases t with
  | node v l r ms mh =>
    rw [copyCtor_node, derefIterT_node]
    rw [size_node] at hsz h
    rw [tree_size_some_node] at hsz
    rw [if_pos (by omega)]

theorem C10_witness : topDeref (insert (mkTree 3) 1) 2 = .ok 0 :=
  C10_past_end_deref (insert (mkTree 3) 1) 2
    (Reachable.ins 1 (Reachable.base 3)) (by decide)

end PersistentTree
